import Mathlib

/-!
Verification of the dynamesa table-access layer (src/dynamesa.py).

The development shallowly embeds the data model and the operations of the
library: items are association lists from field names to values, the three
sentinel objects are distinguished constructors of the value type (Python
identity comparison on the sentinel singletons becomes constructor equality),
fallible operations return `Except`, and mutation of a caller-supplied
argument is modelled by returning the mutated mapping alongside the result.
The service (DynamoDB) is passed in as an explicit function where a claim
needs it, so that round trips and failure windows can be stated.
-/

namespace Dynamesa

/-- Values stored in an item. `removeKey` and `missingKey` embed the
REMOVE_KEY and MISSING_KEY sentinel singletons; Python `is`-comparison
against a sentinel becomes equality with the corresponding constructor. -/
inductive Value where
  | str (s : String)
  | int (n : Int)
  | removeKey
  | missingKey
deriving DecidableEq, Repr

/-- An item (or keyword mapping): an ordered association list from field
names to values, mirroring a Python dict's insertion order. -/
abbrev Item := List (String × Value)

/-- Lookup of a field in an item, matching Python dict lookup. -/
def lookupVal (k : String) : Item → Option Value
  | [] => none
  | (k2, v) :: rest => if k2 = k then some v else lookupVal k rest

/-- Removal of a field from an item (first occurrence), matching
`dict.pop` on a dict whose keys are unique. -/
def eraseKey (k : String) : Item → Item
  | [] => []
  | (k2, v) :: rest => if k2 = k then rest else (k2, v) :: eraseKey k rest

/-- Overwriting of an existing field's value in place, matching `setattr`
on a record object that already has the attribute. -/
def setVal (k : String) (v : Value) (d : Item) : Item :=
  d.map (fun kv => if kv.1 = k then (k, v) else kv)

/-- Embedding of `itemdict` (src/dynamesa.py lines 41-48): the item's field
mapping with every field whose value is the MISSING_KEY sentinel removed. -/
def itemdict (d : Item) : Item :=
  d.filter (fun kv => decide (kv.2 ≠ Value.missingKey))

/-- A table handle: the cached table name, primary-key schema (attribute
names of the key schema elements, in schema order), global secondary
indexes, and an identifier distinguishing the handle's own per-handle
`DoesNotExist` subclass (src/dynamesa.py line 59). -/
structure Table where
  name : String
  keySchema : List String
  gsis : List (String × List String)
  handleId : Nat
deriving DecidableEq, Repr

/-- Errors raised by `Table.get`: the two ValueErrors of lines 71-79 and
the per-handle DoesNotExist of line 82, tagged with the handle that owns
the raised subclass. -/
inductive GetError where
  | missingKey (field : String)
  | unexpectedField (fields : List String)
  | notFound (handleId : Nat) (key : Item)
deriving DecidableEq, Repr

/-- Embedding of the key-building loop of `Table.get` (lines 68-75): walk
the key schema in order, failing on the first declared key field absent
from the keywords, otherwise collecting the key fields. -/
def buildGetKey : List String → Item → Except GetError Item
  | [], _ => .ok []
  | k :: ks, kwargs =>
    match lookupVal k kwargs with
    | none => .error (.missingKey k)
    | some v =>
      match buildGetKey ks kwargs with
      | .error e => .error e
      | .ok rest => .ok ((k, v) :: rest)

/-- Embedding of the fetch phase of `Table.get` (lines 80-83): call the
service with the built key; a falsy result (absent item, or an empty item,
Python `if not item`) raises the handle's own DoesNotExist, otherwise the
item is returned converted by the handle's item type. -/
def fetchPhase {α : Type} (t : Table) (conv : Item → α) (key : Item)
    (svc : Item → Option Item) : Except GetError α :=
  match svc key with
  | none => .error (.notFound t.handleId key)
  | some item => if item = [] then .error (.notFound t.handleId key) else .ok (conv item)

/-- Embedding of `Table.get` (lines 67-83), generic in the handle's item
type conversion `conv` (Python `self.item_type(**item)`). -/
def Table.getAs {α : Type} (t : Table) (conv : Item → α) (kwargs : Item)
    (svc : Item → Option Item) : Except GetError α :=
  match buildGetKey t.keySchema kwargs with
  | .error e => .error e
  | .ok key =>
    if kwargs.filter (fun kv => !(t.keySchema.contains kv.1)) = [] then
      fetchPhase t conv key svc
    else .error (.unexpectedField
      ((kwargs.filter (fun kv => !(t.keySchema.contains kv.1))).map Prod.fst))

/-- Embedding of `Table.get` with the default `dict` item type (the
identity conversion). -/
def Table.get (t : Table) (kwargs : Item) (svc : Item → Option Item) :
    Except GetError Item :=
  t.getAs (fun it => it) kwargs svc

/-- Errors raised by `Table.update` before any service call: the missing
primary-key ValueError of lines 102-105 and the empty-update ValueError of
lines 108-109. -/
inductive UpdateError where
  | missingKey (field : String)
  | emptyUpdate
deriving DecidableEq, Repr

/-- The UpdateItem request assembled by `Table.update` (lines 135-146). -/
structure UpdateRequest where
  key : Item
  updateExpr : String
  exprAttrs : List (String × String)
  exprVals : List (String × Value)
  returnValues : String
deriving DecidableEq, Repr

/-- Embedding of the primary-key extraction loop of `Table.update` (lines
99-106): walk the key schema in order, popping each key field out of the
working copy, failing on the first key field absent from it. -/
def extractPk : List String → Item → Except UpdateError (Item × Item)
  | [], d => .ok ([], d)
  | k :: ks, d =>
    match lookupVal k d with
    | none => .error (.missingKey k)
    | some v =>
      match extractPk ks (eraseKey k d) with
      | .error e => .error e
      | .ok (pk, rest) => .ok ((k, v) :: pk, rest)

/-- Embedding of the expression-building loop of `Table.update` (lines
111-127), restricted to its pure outputs: for the `i`-th remaining entry,
record the attribute-name placeholder, then skip MISSING_KEY values, send
REMOVE_KEY values to the remove clauses, and send every other value to the
set clauses with a value placeholder. Returns
(expression_attrs, expression_vals, set_parts, remove_parts). -/
def buildParts : Nat → Item →
    List (String × String) × List (String × Value) × List String × List String
  | _, [] => ([], [], [], [])
  | i, (k, v) :: rest =>
    let parts := buildParts (i + 1) rest
    let nm := "#a" ++ toString i
    if v = Value.missingKey then
      ((nm, k) :: parts.1, parts.2.1, parts.2.2.1, parts.2.2.2)
    else if v = Value.removeKey then
      ((nm, k) :: parts.1, parts.2.1, parts.2.2.1, nm :: parts.2.2.2)
    else
      ((nm, k) :: parts.1, (":v" ++ toString i, v) :: parts.2.1,
        (nm ++ " = :v" ++ toString i) :: parts.2.2.1, parts.2.2.2)

/-- Embedding of the mutation the expression-building loop performs on the
caller's original update argument (lines 119-123): for each remaining entry
whose value is REMOVE_KEY, pop the field when the original is a dict, or
set the attribute to MISSING_KEY when it is a record object. -/
def applyRemovals (isDict : Bool) : Item → Item → Item
  | [], orig => orig
  | (k, v) :: rest, orig =>
    if v = Value.removeKey then
      applyRemovals isDict rest (if isDict then eraseKey k orig else setVal k Value.missingKey orig)
    else applyRemovals isDict rest orig

/-- Embedding of the update-expression assembly of `Table.update` (lines
129-133): start from the empty string, append the SET segment when there
are set parts, then append the REMOVE segment (with its leading space) when
there are remove parts. -/
def mkUpdateExpr (setParts removeParts : List String) : String :=
  (if setParts = [] then "" else "SET " ++ String.intercalate ", " setParts) ++
  (if removeParts = [] then "" else " REMOVE " ++ String.intercalate ", " removeParts)

/-- Embedding of `Table.update` (lines 89-146) up to the service call: it
either fails with one of the pre-call ValueErrors, or returns the assembled
UpdateItem request together with the caller's original update argument as
mutated by the REMOVE_KEY side effect. -/
def Table.update (t : Table) (upd : Item) (isDict : Bool) (returnValues : String) :
    Except UpdateError (UpdateRequest × Item) :=
  match extractPk t.keySchema (itemdict upd) with
  | .error e => .error e
  | .ok (pk, rest) =>
    if rest = [] then .error .emptyUpdate
    else
      let parts := buildParts 0 rest
      .ok ({ key := pk, updateExpr := mkUpdateExpr parts.2.2.1 parts.2.2.2,
             exprAttrs := parts.1, exprVals := parts.2.1, returnValues := returnValues },
        applyRemovals isDict rest upd)

/-- Embedding of a full `Table.update` call against a service: the request
is built (mutating the caller's argument) and only then is the service
invoked, so the pair's second component is the caller's argument as it
stands after the call, whether or not the service call succeeded. -/
def Table.updateWithService (t : Table) (upd : Item) (isDict : Bool)
    (returnValues : String) (svc : UpdateRequest → Except String Item) :
    Except (UpdateError ⊕ String) Item × Item :=
  match t.update upd isDict returnValues with
  | .error e => (.error (Sum.inl e), upd)
  | .ok (req, mutated) =>
    match svc req with
    | .error msg => (.error (Sum.inr msg), mutated)
    | .ok res => (.ok res, mutated)



/-- Boolean condition expressions passed to or built by `find`: `keyEq`
embeds `Key(k).eq(v)`, `and` embeds `&` (the `operator.and_` reduction),
and `strArg`/`litArg` stand for other caller-supplied positional objects
that the code would pass through as expressions. -/
inductive Cond where
  | keyEq (field : String) (v : Value)
  | and (a b : Cond)
  | strArg (s : String)
  | litArg (n : Nat)
deriving DecidableEq, Repr

/-- Positional arguments of `Table.find`: the PRIMARY_KEY sentinel, an
index-name string, a condition expression, or some other falsy object
(such as None). -/
inductive FindArg where
  | primaryKey
  | name (s : String)
  | cond (c : Cond)
  | falsy
deriving DecidableEq, Repr

/-- Selector test of find's first positional argument (line 155): the
PRIMARY_KEY sentinel or any string is consumed as the index selector. -/
def FindArg.isSelector : FindArg → Bool
  | .primaryKey => true
  | .name _ => true
  | _ => false

/-- Python truthiness of a find argument: the PRIMARY_KEY sentinel object
and condition objects are truthy, a string is truthy iff non-empty. -/
def FindArg.truthy : FindArg → Bool
  | .primaryKey => true
  | .name s => decide (s ≠ "")
  | .cond _ => true
  | .falsy => false

/-- View of a positional argument as the condition expression the code
would pass through verbatim. -/
def FindArg.asCond : FindArg → Cond
  | .cond c => c
  | .name s => .strArg s
  | .primaryKey => .litArg 0
  | .falsy => .litArg 1

/-- Errors `find` can raise while assembling the request: the NameError on
the unassigned `idx_keys` local (line 177), the AssertionErrors on too many
positional arguments (lines 179-181, 188), the KeyError on a key field
absent from the keywords (line 175), the StopIteration of the secondary
index lookup (line 171), and the TypeError of reducing an empty list. -/
inductive FindError where
  | nameErr
  | assertionErr
  | keyErr (k : String)
  | stopIteration
  | typeErr
deriving DecidableEq, Repr

/-- The paginated request `find` dispatches: the operation name passed to
`get_paginator` (line 194 or 196) and the assembled paginate kwargs. -/
structure FindRequest where
  op : String
  indexName : Option String
  keyCond : Option Cond
  filterExpr : Option Cond
deriving DecidableEq, Repr

/-- Embedding of `functools.reduce(operator.and_, conds)`: left fold of
`&` over a non-empty list, none when the list is empty. -/
def reduceAnd : List Cond → Option Cond
  | [] => none
  | c :: rest => some (rest.foldl Cond.and c)

/-- Lookup of a global secondary index's key schema by index name,
embedding the generator search of line 171. -/
def lookupGsi (s : String) : List (String × List String) → Option (List String)
  | [] => none
  | (n, ks) :: rest => if n = s then some ks else lookupGsi s rest

/-- Key schema of the selected index (lines 168-172): the table's own key
schema for the PRIMARY_KEY sentinel, else the named secondary index's key
schema, with the generator's StopIteration when the name is unknown. -/
def idxSchemaOf (t : Table) (sel : FindArg) : Except FindError (List String) :=
  match sel with
  | .primaryKey => .ok t.keySchema
  | .name s =>
    match lookupGsi s t.gsis with
    | some ks => .ok ks
    | none => .error .stopIteration
  | _ => .error .stopIteration

/-- Equality conditions `Key(k).eq(kwargs[k])` for every key field of the
selected index (line 175), failing with KeyError on the first key field
missing from the keywords. -/
def keyEqs : List String → Item → Except FindError (List Cond)
  | [], _ => .ok []
  | k :: ks, kwargs =>
    match lookupVal k kwargs with
    | none => .error (.keyErr k)
    | some v =>
      match keyEqs ks kwargs with
      | .error e => .error e
      | .ok rest => .ok (Cond.keyEq k v :: rest)

/-- Synthesized key condition of lines 168-176: the AND-reduction of one
equality per key field of the selected index, also returning that index's
key-field set (the `idx_keys` local). -/
def synthKeyCond (t : Table) (sel : FindArg) (kwargs : Item) :
    Except FindError (Cond × List String) :=
  match idxSchemaOf t sel with
  | .error e => .error e
  | .ok ks =>
    match keyEqs ks kwargs with
    | .error e => .error e
    | .ok eqs =>
      match reduceAnd eqs with
      | none => .error .typeErr
      | some c => .ok (c, ks)

/-- Embedding of the keyword-filter comprehension of line 177, including
its NameError: when the keywords are non-empty the comprehension evaluates
`k not in idx_keys`, which fails if the `idx_keys` local was never assigned
(the explicit key-condition path leaves it unassigned). -/
def kwargsFilters (idxKeys : Option (List String)) (kwargs : Item) :
    Except FindError (List Cond) :=
  match kwargs with
  | [] => .ok []
  | _ =>
    match idxKeys with
    | none => .error .nameErr
    | some ks =>
      .ok ((kwargs.filter (fun kv => !(ks.contains kv.1))).map
        (fun kv => Cond.keyEq kv.1 kv.2))

/-- Embedding of the trailing positional filter handling (lines 178-182 and
187-189): no remaining argument leaves the filters alone, exactly one is
appended as a filter, and more than one fails the assertion. -/
def addTrailingFilter (filters : List Cond) : List FindArg → Except FindError (List Cond)
  | [] => .ok filters
  | [a] => .ok (filters ++ [a.asCond])
  | _ => .error .assertionErr

/-- IndexName entry of the paginate kwargs (lines 161-162): set to the
selector only when the selector is a string (not the PRIMARY_KEY
sentinel). -/
def selIndexName : FindArg → Option String
  | FindArg.name s => some s
  | _ => none

/-- Embedding of the index branch of `find` (lines 160-184 with the query
dispatch of line 194): consume a truthy leading positional argument as the
explicit key condition (leaving `idx_keys` unassigned), otherwise
synthesize the key condition from the selected index's key fields; then
build keyword filters, append the optional trailing filter, and assemble a
paginated query request. -/
def findIndexBranch (t : Table) (sel : FindArg) (args : List FindArg)
    (kwargs : Item) : Except FindError FindRequest :=
  let idxName : Option String := selIndexName sel
  let step1 : Except FindError (Cond × List FindArg × Option (List String)) :=
    match args with
    | a :: rest =>
      if a.truthy then .ok (a.asCond, rest, none)
      else
        match synthKeyCond t sel kwargs with
        | .error e => .error e
        | .ok (c, ks) => .ok (c, a :: rest, some ks)
    | [] =>
      match synthKeyCond t sel kwargs with
      | .error e => .error e
      | .ok (c, ks) => .ok (c, [], some ks)
  match step1 with
  | .error e => .error e
  | .ok (kc, args2, idxKeys) =>
    match kwargsFilters idxKeys kwargs with
    | .error e => .error e
    | .ok filters =>
      match addTrailingFilter filters args2 with
      | .error e => .error e
      | .ok filters2 =>
        .ok { op := "query", indexName := idxName, keyCond := some kc,
              filterExpr := reduceAnd filters2 }

/-- Embedding of the scan path of `find` (lines 185-190 with the scan
dispatch of line 196): with no positional arguments and no keywords the
scan carries no filter; otherwise every keyword becomes an equality filter,
the optional trailing positional argument is appended, and the
AND-reduction becomes the filter expression. -/
def findScanBranch (args : List FindArg) (kwargs : Item) :
    Except FindError FindRequest :=
  if args = [] ∧ kwargs = [] then
    .ok { op := "scan", indexName := none, keyCond := none, filterExpr := none }
  else
    let filters := kwargs.map (fun kv => Cond.keyEq kv.1 kv.2)
    match addTrailingFilter filters args with
    | .error e => .error e
    | .ok filters2 =>
      match reduceAnd filters2 with
      | none => .error .typeErr
      | some c =>
        .ok { op := "scan", indexName := none, keyCond := none, filterExpr := some c }

/-- Embedding of `Table.find` (lines 152-196) up to the paginated service
call: the first positional argument is consumed as the index selector when
it is the PRIMARY_KEY sentinel or a string; a truthy selector takes the
query branch and anything else takes the scan branch. -/
def Table.find (t : Table) (args0 : List FindArg) (kwargs : Item) :
    Except FindError FindRequest :=
  match args0 with
  | a :: rest =>
    if a.isSelector then
      if a.truthy then findIndexBranch t a rest kwargs
      else findScanBranch rest kwargs
    else findScanBranch args0 kwargs
  | [] => findScanBranch [] kwargs

/-- Bound on the number of positional arguments `find` actually accepts
beyond the (optional) index selector: with a truthy selector a key
condition and a filter may follow (three or more further arguments are
over the limit), without one at most a single filter expression may be
supplied. -/
def overLimit : List FindArg → Bool
  | [] => false
  | a :: r =>
    if a.isSelector then
      if a.truthy then decide (3 ≤ r.length) else decide (2 ≤ r.length)
    else decide (1 ≤ r.length)

/-- Projection of an item onto a key schema, used by the store model to
address rows: the key fields present in the item, in schema order. -/
def keyProj (schema : List String) (it : Item) : Item :=
  schema.filterMap (fun k => (lookupVal k it).map (fun v => (k, v)))

/-- Store model of PutItem: replace any row with the same primary key and
append the new row. -/
def putItem (schema : List String) (it : Item) (store : List Item) : List Item :=
  store.filter (fun s => decide (¬ keyProj schema s = keyProj schema it)) ++ [it]

/-- Embedding of `Table.put` (lines 85-87): the stored representation is
`itemdict item`. -/
def Table.put (t : Table) (item : Item) (store : List Item) : List Item :=
  putItem t.keySchema (itemdict item) store

/-- Store model of GetItem: the first row whose key projection equals the
requested key. -/
def svcGetItem (schema : List String) (store : List Item) (key : Item) :
    Option Item :=
  store.find? (fun s => decide (keyProj schema s = key))

/-- The registry cache of `_TableGetter` (lines 213-216): the cached table
handles (keyed by table name), the configured table-name prefix, and the
table listing the service would return on `reload`. -/
structure Registry where
  cache : List (String × Table)
  namePfx : String
  svcTables : List Table
deriving DecidableEq, Repr

/-- Embedding of `_TableGetter.reload` (lines 225-229): repopulate the
cache from the service's table listing. -/
def Registry.reload (r : Registry) : Registry :=
  { r with cache := r.svcTables.map (fun t => (t.name, t)) }

/-- The cache each registry read operates on: both `__iter__` and `__len__`
reload first when the cache is empty (lines 316-317 and 321-322). -/
def Registry.effCache (r : Registry) : List (String × Table) :=
  if r.cache = [] then r.reload.cache else r.cache

/-- Model of Python `str.startswith`, stated over the underlying character
list so that it evaluates by kernel reduction. -/
def strStartsWith (s p : String) : Bool := p.data.isPrefixOf s.data

/-- Embedding of `_TableGetter.__iter__` (lines 315-318): the cached
handles whose table names start with the configured prefix. -/
def Registry.iterTables (r : Registry) : List Table :=
  (r.effCache.map Prod.snd).filter (fun t => strStartsWith t.name r.namePfx)

/-- Embedding of `_TableGetter.__len__` (lines 320-323): the size of the
cache, with no prefix filtering. -/
def Registry.lenTables (r : Registry) : Nat :=
  r.effCache.length

/-- Non-key fields of an update mapping as `Table.update` sees them: the
MISSING_KEY-stripped mapping with the table's key-schema fields removed. -/
def nonKeyFields (t : Table) (upd : Item) : Item :=
  (itemdict upd).filter (fun kv => !(t.keySchema.contains kv.1))

/-- Spec-side formula for the attribute-name placeholder map: the `i`-th
remaining field is assigned the distinct placeholder `#a i`. -/
def attrMapSpec (n : Nat) (rest : Item) : List (String × String) :=
  (List.enumFrom n rest).map (fun p => ("#a" ++ toString p.1, p.2.1))

/-- Spec-side formula for the value placeholder map: every remaining field
that is neither REMOVE_KEY nor MISSING_KEY maps the placeholder `:v i` to
its value. -/
def valMapSpec (n : Nat) (rest : Item) : List (String × Value) :=
  (List.enumFrom n rest).filterMap (fun p =>
    if p.2.2 = Value.removeKey ∨ p.2.2 = Value.missingKey then none
    else some (":v" ++ toString p.1, p.2.2))

/-- Spec-side formula for the SET clauses: every remaining field that is
neither REMOVE_KEY nor MISSING_KEY contributes `#a i = :v i`. -/
def setClausesSpec (n : Nat) (rest : Item) : List String :=
  (List.enumFrom n rest).filterMap (fun p =>
    if p.2.2 = Value.removeKey ∨ p.2.2 = Value.missingKey then none
    else some ("#a" ++ toString p.1 ++ " = :v" ++ toString p.1))

/-- Spec-side formula for the REMOVE clauses: every remaining field whose
value is REMOVE_KEY contributes its name placeholder `#a i`. -/
def removeClausesSpec (n : Nat) (rest : Item) : List String :=
  (List.enumFrom n rest).filterMap (fun p =>
    if p.2.2 = Value.removeKey then some ("#a" ++ toString p.1) else none)

/-- Spec-side formula for the final update expression: the SET segment
(present iff there is at least one set clause) followed by the REMOVE
segment, which always carries a leading space (present iff there is at
least one remove clause). -/
def exprSpec (rest : Item) : String :=
  (if setClausesSpec 0 rest = [] then ""
    else "SET " ++ String.intercalate ", " (setClausesSpec 0 rest)) ++
  (if removeClausesSpec 0 rest = [] then ""
    else " REMOVE " ++ String.intercalate ", " (removeClausesSpec 0 rest))

/-- A concrete two-key table with one secondary index, mirroring the
test-suite's User table. -/
def userTable : Table :=
  { name := "User", keySchema := ["id", "ts"], gsis := [("AgeIndex", ["age"])],
    handleId := 0 }

/-- A concrete single-hash-key table. -/
def plainTable : Table :=
  { name := "T", keySchema := ["id"], gsis := [], handleId := 1 }

/-! Helper lemmas about the association-list operations. -/

theorem lookupVal_cons (k k2 : String) (w : Value) (rest : Item) :
    lookupVal k ((k2, w) :: rest) = if k2 = k then some w else lookupVal k rest := rfl

theorem eraseKey_cons (k k2 : String) (w : Value) (rest : Item) :
    eraseKey k ((k2, w) :: rest) =
      if k2 = k then rest else (k2, w) :: eraseKey k rest := rfl

theorem setVal_cons (k : String) (v : Value) (k3 : String) (w : Value) (rest : Item) :
    setVal k v ((k3, w) :: rest) =
      (if k3 = k then (k, v) else (k3, w)) :: setVal k v rest := by
  simp [setVal]

theorem lookupVal_mem {k : String} {v : Value} :
    ∀ {l : Item}, lookupVal k l = some v → (k, v) ∈ l := by
  intro l
  induction l with
  | nil => intro h; simp [lookupVal] at h
  | cons kv rest ih =>
    intro h
    obtain ⟨k2, w⟩ := kv
    by_cases hk : k2 = k
    · subst hk
      simp [lookupVal] at h
      simp [h]
    · simp [lookupVal, hk] at h
      exact List.mem_cons_of_mem _ (ih h)

theorem lookupVal_eq_none {k : String} :
    ∀ {l : Item}, lookupVal k l = none ↔ k ∉ l.map Prod.fst := by
  intro l
  induction l with
  | nil => simp [lookupVal]
  | cons kv rest ih =>
    obtain ⟨k2, w⟩ := kv
    by_cases hk : k2 = k
    · subst hk; simp [lookupVal]
    · simp [lookupVal, hk, ih, Ne.symm hk]

theorem mem_lookupVal {k : String} {v : Value} :
    ∀ {l : Item}, (l.map Prod.fst).Nodup → (k, v) ∈ l → lookupVal k l = some v := by
  intro l
  induction l with
  | nil => intro _ h; simp at h
  | cons kv rest ih =>
    intro hnd hm
    obtain ⟨k2, w⟩ := kv
    simp at hnd
    rcases List.mem_cons.mp hm with heq | htl
    · obtain ⟨h1, h2⟩ := Prod.mk.injEq .. ▸ heq
      cases heq
      simp [lookupVal]
    · have hk : k2 ≠ k := by
        intro hkk
        subst hkk
        exact hnd.1 v htl
      simp [lookupVal, hk]
      exact ih hnd.2 htl

theorem lookupVal_filter_none {k : String} {p : String × Value → Bool} :
    ∀ {l : Item}, lookupVal k l = none → lookupVal k (l.filter p) = none := by
  intro l h
  rw [lookupVal_eq_none] at h ⊢
  intro hmem
  exact h (((List.filter_sublist l).map Prod.fst).subset hmem)

theorem lookupVal_filter_some {k : String} {v : Value} {p : String × Value → Bool} :
    ∀ {l : Item}, (l.map Prod.fst).Nodup → lookupVal k l = some v → p (k, v) = true →
      lookupVal k (l.filter p) = some v := by
  intro l
  induction l with
  | nil => intro _ h; simp [lookupVal] at h
  | cons kv rest ih =>
    intro hnd h hp
    obtain ⟨k2, w⟩ := kv
    simp at hnd
    by_cases hk : k2 = k
    · subst hk
      simp [lookupVal] at h
      subst h
      simp [List.filter_cons, hp, lookupVal]
    · simp [lookupVal, hk] at h
      rcases hq : p (k2, w) with _ | _
      · simp [List.filter_cons, hq]
        exact ih hnd.2 h hp
      · simp [List.filter_cons, hq, lookupVal, hk]
        exact ih hnd.2 h hp

theorem lookupVal_filter_not {k : String} {v : Value} {p : String × Value → Bool} :
    ∀ {l : Item}, (l.map Prod.fst).Nodup → lookupVal k l = some v → p (k, v) = false →
      lookupVal k (l.filter p) = none := by
  intro l
  induction l with
  | nil => intro _ h; simp [lookupVal] at h
  | cons kv rest ih =>
    intro hnd h hp
    obtain ⟨k2, w⟩ := kv
    simp at hnd
    by_cases hk : k2 = k
    · subst hk
      simp [lookupVal] at h
      subst h
      simp [List.filter_cons, hp]
      rw [lookupVal_eq_none]
      intro hmem
      obtain ⟨⟨a, b⟩, hab, hfst⟩ := List.mem_map.mp hmem
      cases hfst
      exact hnd.1 b ((List.filter_sublist rest).subset hab)
    · simp [lookupVal, hk] at h
      rcases hq : p (k2, w) with _ | _
      · simp [List.filter_cons, hq]
        exact ih hnd.2 h hp
      · simp [List.filter_cons, hq, lookupVal, hk]
        exact ih hnd.2 h hp

theorem nodup_fst_filter {p : String × Value → Bool} {l : Item}
    (h : (l.map Prod.fst).Nodup) : ((l.filter p).map Prod.fst).Nodup :=
  h.sublist ((List.filter_sublist l).map Prod.fst)

theorem eraseKey_sublist (k : String) : ∀ (l : Item), (eraseKey k l).Sublist l := by
  intro l
  induction l with
  | nil => simp [eraseKey]
  | cons kv rest ih =>
    obtain ⟨k2, w⟩ := kv
    by_cases hk : k2 = k
    · simp [eraseKey, hk]
    · simp [eraseKey, hk]
      exact ih

theorem lookupVal_eraseKey_ne {k k2 : String} (hk : k2 ≠ k) :
    ∀ (l : Item), lookupVal k2 (eraseKey k l) = lookupVal k2 l := by
  intro l
  induction l with
  | nil => simp [eraseKey]
  | cons kv rest ih =>
    obtain ⟨k3, w⟩ := kv
    rw [eraseKey_cons]
    by_cases h3 : k3 = k
    · subst h3
      rw [if_pos rfl, lookupVal_cons, if_neg (fun h => hk h.symm)]
    · rw [if_neg h3, lookupVal_cons, lookupVal_cons]
      by_cases h32 : k3 = k2
      · rw [if_pos h32, if_pos h32]
      · rw [if_neg h32, if_neg h32, ih]

theorem lookupVal_eraseKey_self {k : String} :
    ∀ {l : Item}, (l.map Prod.fst).Nodup → lookupVal k (eraseKey k l) = none := by
  intro l
  induction l with
  | nil => intro _; simp [eraseKey, lookupVal]
  | cons kv rest ih =>
    intro hnd
    obtain ⟨k2, w⟩ := kv
    simp at hnd
    rw [eraseKey_cons]
    by_cases hk : k2 = k
    · subst hk
      rw [if_pos rfl, lookupVal_eq_none]
      intro hmem
      obtain ⟨⟨a, b⟩, hab, hfst⟩ := List.mem_map.mp hmem
      cases hfst
      exact hnd.1 b hab
    · rw [if_neg hk, lookupVal_cons, if_neg hk]
      exact ih hnd.2

theorem mem_eraseKey_of_ne {k : String} {kv : String × Value} :
    ∀ {l : Item}, kv ∈ l → kv.1 ≠ k → kv ∈ eraseKey k l := by
  intro l
  induction l with
  | nil => intro h; simp at h
  | cons kv2 rest ih =>
    intro hm hne
    obtain ⟨k2, w⟩ := kv2
    by_cases hk : k2 = k
    · subst hk
      simp [eraseKey]
      rcases List.mem_cons.mp hm with heq | htl
      · exact absurd (heq ▸ rfl) hne
      · exact htl
    · simp [eraseKey, hk]
      rcases List.mem_cons.mp hm with heq | htl
      · exact Or.inl heq
      · exact Or.inr (ih htl hne)

theorem map_fst_setVal (k : String) (v : Value) :
    ∀ (l : Item), (setVal k v l).map Prod.fst = l.map Prod.fst := by
  intro l
  induction l with
  | nil => simp [setVal]
  | cons kv rest ih =>
    obtain ⟨k2, w⟩ := kv
    rw [setVal_cons]
    by_cases hk : k2 = k
    · rw [if_pos hk, List.map_cons, List.map_cons, ih]
      simp [hk]
    · rw [if_neg hk, List.map_cons, List.map_cons, ih]

theorem lookupVal_setVal_ne {k k2 : String} (hk : k2 ≠ k) (v : Value) :
    ∀ (l : Item), lookupVal k2 (setVal k v l) = lookupVal k2 l := by
  intro l
  induction l with
  | nil => simp [setVal, lookupVal]
  | cons kv rest ih =>
    obtain ⟨k3, w⟩ := kv
    rw [setVal_cons]
    by_cases h3 : k3 = k
    · subst h3
      rw [if_pos rfl, lookupVal_cons, lookupVal_cons,
        if_neg (fun h => hk h.symm), if_neg (fun h => hk h.symm)]
      exact ih
    · rw [if_neg h3, lookupVal_cons, lookupVal_cons]
      by_cases h32 : k3 = k2
      · rw [if_pos h32, if_pos h32]
      · rw [if_neg h32, if_neg h32]
        exact ih

theorem lookupVal_setVal_self {k : String} {v : Value} :
    ∀ {l : Item}, (lookupVal k l).isSome → lookupVal k (setVal k v l) = some v := by
  intro l
  induction l with
  | nil => intro h; simp [lookupVal] at h
  | cons kv rest ih =>
    intro hs
    obtain ⟨k2, w⟩ := kv
    rw [setVal_cons]
    by_cases hk : k2 = k
    · rw [if_pos hk, lookupVal_cons, if_pos rfl]
    · rw [if_neg hk, lookupVal_cons, if_neg hk]
      rw [lookupVal_cons, if_neg hk] at hs
      exact ih hs

theorem keyProj_keys_mem {schema : List String} {it : Item} {kv : String × Value}
    (h : kv ∈ keyProj schema it) : kv.1 ∈ schema := by
  simp only [keyProj, List.mem_filterMap, Option.map_eq_some'] at h
  obtain ⟨k, hk, v, hv, hkv⟩ := h
  cases hkv
  exact hk

theorem lookupVal_keyProj_not_mem {schema : List String} {it : Item} {k : String}
    (h : k ∉ schema) : lookupVal k (keyProj schema it) = none := by
  rw [lookupVal_eq_none]
  intro hmem
  obtain ⟨kv, hkv, hfst⟩ := List.mem_map.mp hmem
  exact h (hfst ▸ keyProj_keys_mem hkv)

theorem keyProj_cons_none {k0 : String} {ks : List String} {it : Item}
    (h : lookupVal k0 it = none) : keyProj (k0 :: ks) it = keyProj ks it := by
  simp only [keyProj]
  exact List.filterMap_cons_none (by rw [h]; rfl)

theorem keyProj_cons_some {k0 : String} {ks : List String} {it : Item} {v : Value}
    (h : lookupVal k0 it = some v) :
    keyProj (k0 :: ks) it = (k0, v) :: keyProj ks it := by
  simp only [keyProj]
  exact List.filterMap_cons_some (by rw [h]; rfl)

theorem lookupVal_keyProj {k : String} {it : Item} :
    ∀ {schema : List String}, schema.Nodup → k ∈ schema →
      lookupVal k (keyProj schema it) = lookupVal k it := by
  intro schema
  induction schema with
  | nil => intro _ h; simp at h
  | cons k0 ks ih =>
    intro hnd hmem
    simp at hnd
    by_cases hk : k0 = k
    · subst hk
      rcases hv : lookupVal k0 it with _ | v
      · rw [keyProj_cons_none hv]
        exact lookupVal_keyProj_not_mem hnd.1
      · rw [keyProj_cons_some hv, lookupVal_cons, if_pos rfl]
    · have hks : k ∈ ks := by
        rcases List.mem_cons.mp hmem with h | h
        · exact absurd h.symm hk
        · exact h
      rcases hv : lookupVal k0 it with _ | v
      · rw [keyProj_cons_none hv]
        exact ih hnd.2 hks
      · rw [keyProj_cons_some hv, lookupVal_cons, if_neg hk]
        exact ih hnd.2 hks

theorem keyProj_congr {it1 it2 : Item} :
    ∀ {schema : List String}, (∀ k ∈ schema, lookupVal k it1 = lookupVal k it2) →
      keyProj schema it1 = keyProj schema it2 := by
  intro schema
  induction schema with
  | nil => intro _; rfl
  | cons k0 ks ih =>
    intro h
    have hrec := ih (fun k hk => h k (List.mem_cons_of_mem _ hk))
    rcases hv : lookupVal k0 it1 with _ | v
    · rw [keyProj_cons_none hv, keyProj_cons_none ((h k0 (List.mem_cons_self _ _)).symm.trans hv), hrec]
    · rw [keyProj_cons_some hv, keyProj_cons_some ((h k0 (List.mem_cons_self _ _)).symm.trans hv), hrec]

theorem buildGetKey_ok_of_all {kwargs : Item} :
    ∀ {schema : List String}, (∀ k ∈ schema, (lookupVal k kwargs).isSome) →
      buildGetKey schema kwargs = .ok (keyProj schema kwargs) := by
  intro schema
  induction schema with
  | nil => intro _; rfl
  | cons k0 ks ih =>
    intro h
    obtain ⟨v, hv⟩ := Option.isSome_iff_exists.mp (h k0 (List.mem_cons_self _ _))
    rw [buildGetKey, hv, ih (fun k hk => h k (List.mem_cons_of_mem _ hk)),
      keyProj_cons_some hv]

theorem buildGetKey_missing {kwargs : Item} :
    ∀ {schema : List String}, (∃ k ∈ schema, lookupVal k kwargs = none) →
      ∃ f ∈ schema, lookupVal f kwargs = none ∧
        buildGetKey schema kwargs = .error (.missingKey f) := by
  intro schema
  induction schema with
  | nil => intro h; simp at h
  | cons k0 ks ih =>
    intro h
    rcases hv : lookupVal k0 kwargs with _ | v
    · exact ⟨k0, List.mem_cons_self _ _, hv, by rw [buildGetKey, hv]⟩
    · have hks : ∃ k ∈ ks, lookupVal k kwargs = none := by
        obtain ⟨k, hk, hkn⟩ := h
        rcases List.mem_cons.mp hk with heq | htl
        · subst heq; rw [hv] at hkn; cases hkn
        · exact ⟨k, htl, hkn⟩
      obtain ⟨f, hf, hfn, hrec⟩ := ih hks
      exact ⟨f, List.mem_cons_of_mem _ hf, hfn, by rw [buildGetKey, hv, hrec]⟩

theorem extractPk_rest_sublist :
    ∀ {schema : List String} {d pk rest : Item},
      extractPk schema d = .ok (pk, rest) → rest.Sublist d := by
  intro schema
  induction schema with
  | nil =>
    intro d pk rest h
    rw [extractPk] at h
    cases h
    exact List.Sublist.refl _
  | cons k ks ih =>
    intro d pk rest h
    rw [extractPk] at h
    rcases hv : lookupVal k d with _ | v
    · rw [hv] at h; cases h
    · rw [hv] at h
      rcases hr : extractPk ks (eraseKey k d) with e | ⟨pk2, rest2⟩
      · rw [hr] at h; cases h
      · rw [hr] at h
        cases h
        exact (ih hr).trans (eraseKey_sublist k d)

theorem extractPk_mem_rest {kv : String × Value} :
    ∀ {schema : List String} {d pk rest : Item},
      extractPk schema d = .ok (pk, rest) → kv ∈ d → kv.1 ∉ schema → kv ∈ rest := by
  intro schema
  induction schema with
  | nil =>
    intro d pk rest h hm _
    rw [extractPk] at h
    cases h
    exact hm
  | cons k ks ih =>
    intro d pk rest h hm hns
    rw [extractPk] at h
    rcases hv : lookupVal k d with _ | v
    · rw [hv] at h; cases h
    · rw [hv] at h
      rcases hr : extractPk ks (eraseKey k d) with e | ⟨pk2, rest2⟩
      · rw [hr] at h; cases h
      · rw [hr] at h
        cases h
        have hne : kv.1 ≠ k := fun hf => hns (hf ▸ List.mem_cons_self _ _)
        exact ih hr (mem_eraseKey_of_ne hm hne) (fun hf => hns (List.mem_cons_of_mem _ hf))

theorem eraseKey_eq_filter {k : String} :
    ∀ {l : Item}, (l.map Prod.fst).Nodup →
      eraseKey k l = l.filter (fun kv => decide (kv.1 ≠ k)) := by
  intro l
  induction l with
  | nil => intro _; rfl
  | cons kv rest ih =>
    intro hnd
    obtain ⟨k2, w⟩ := kv
    simp at hnd
    rw [eraseKey_cons]
    by_cases hk : k2 = k
    · subst hk
      rw [if_pos rfl, List.filter_cons_of_neg (by simp)]
      symm
      rw [List.filter_eq_self]
      intro kv hkv
      simp only [decide_eq_true_eq]
      intro hf
      obtain ⟨a, b⟩ := kv
      cases hf
      exact hnd.1 b hkv
    · rw [if_neg hk, List.filter_cons_of_pos (by simp [hk]), ih hnd.2]

theorem extractPk_closed :
    ∀ {schema : List String} {d : Item}, schema.Nodup → (d.map Prod.fst).Nodup →
      (∀ k ∈ schema, (lookupVal k d).isSome) →
      extractPk schema d =
        .ok (keyProj schema d, d.filter (fun kv => !(schema.contains kv.1))) := by
  intro schema
  induction schema with
  | nil =>
    intro d _ _ _
    rw [extractPk]
    simp [keyProj]
  | cons k ks ih =>
    intro d hnds hnd hall
    simp at hnds
    obtain ⟨v, hv⟩ := Option.isSome_iff_exists.mp (hall k (List.mem_cons_self _ _))
    have hrec := ih hnds.2 (hnd.sublist ((eraseKey_sublist k d).map Prod.fst))
      (fun k2 hk2 => by
        rw [lookupVal_eraseKey_ne (fun h => hnds.1 (by rwa [h] at hk2)) d]
        exact hall k2 (List.mem_cons_of_mem _ hk2))
    rw [extractPk, hv, hrec]
    have hproj : keyProj ks (eraseKey k d) = keyProj ks d :=
      keyProj_congr (fun k2 hk2 =>
        lookupVal_eraseKey_ne (fun h => hnds.1 (by rwa [h] at hk2)) d)
    have hfilter : (eraseKey k d).filter (fun kv => !(ks.contains kv.1)) =
        d.filter (fun kv => !((k :: ks).contains kv.1)) := by
      rw [eraseKey_eq_filter hnd, List.filter_filter]
      apply List.filter_congr
      intro kv _
      simp [List.contains_cons, Bool.not_or, Bool.and_comm]
    rw [hproj, hfilter, keyProj_cons_some hv]

theorem buildParts_eq :
    ∀ (rest : Item) (n : Nat),
      buildParts n rest =
        (attrMapSpec n rest, valMapSpec n rest, setClausesSpec n rest,
          removeClausesSpec n rest) := by
  intro rest
  induction rest with
  | nil =>
    intro n
    simp [buildParts, attrMapSpec, valMapSpec, setClausesSpec, removeClausesSpec,
      List.enumFrom]
  | cons kv rest2 ih =>
    intro n
    obtain ⟨k, v⟩ := kv
    rw [buildParts, ih (n + 1)]
    by_cases hm : v = Value.missingKey
    · subst hm
      simp [attrMapSpec, valMapSpec, setClausesSpec, removeClausesSpec, List.enumFrom]
    · by_cases hr : v = Value.removeKey
      · subst hr
        simp [hm, attrMapSpec, valMapSpec, setClausesSpec, removeClausesSpec,
          List.enumFrom]
      · simp [hm, hr, attrMapSpec, valMapSpec, setClausesSpec, removeClausesSpec,
          List.enumFrom]

theorem applyRemovals_untouched {k : String} {isDict : Bool} :
    ∀ {entries : Item} {acc : Item},
      (∀ kv ∈ entries, kv.2 = Value.removeKey → kv.1 ≠ k) →
      lookupVal k (applyRemovals isDict entries acc) = lookupVal k acc := by
  intro entries
  induction entries with
  | nil => intro acc _; rfl
  | cons kv rest ih =>
    intro acc h
    obtain ⟨k2, v⟩ := kv
    rw [applyRemovals]
    by_cases hv : v = Value.removeKey
    · rw [if_pos hv]
      have hne : k2 ≠ k := h (k2, v) (List.mem_cons_self _ _) hv
      rw [ih (fun kv hkv => h kv (List.mem_cons_of_mem _ hkv))]
      cases isDict with
      | true => simp only [if_pos rfl]; exact lookupVal_eraseKey_ne (fun hf => hne hf.symm) acc
      | false => simp only [if_neg Bool.false_ne_true]; exact lookupVal_setVal_ne (fun hf => hne hf.symm) _ acc
    · rw [if_neg hv]
      exact ih (fun kv hkv => h kv (List.mem_cons_of_mem _ hkv)) 

theorem map_fst_applyRemovals_nodup {isDict : Bool} :
    ∀ {entries : Item} {acc : Item}, (acc.map Prod.fst).Nodup →
      ((applyRemovals isDict entries acc).map Prod.fst).Nodup := by
  intro entries
  induction entries with
  | nil => intro acc h; exact h
  | cons kv rest ih =>
    intro acc h
    obtain ⟨k2, v⟩ := kv
    rw [applyRemovals]
    by_cases hv : v = Value.removeKey
    · rw [if_pos hv]
      apply ih
      cases isDict with
      | true =>
        simp only [if_pos rfl]
        exact h.sublist ((eraseKey_sublist k2 acc).map Prod.fst)
      | false =>
        simp only [if_neg Bool.false_ne_true]
        rw [map_fst_setVal]
        exact h
    · rw [if_neg hv]
      exact ih h

theorem applyRemovals_removed_dict {k : String} :
    ∀ {entries : Item} {acc : Item}, (entries.map Prod.fst).Nodup →
      (k, Value.removeKey) ∈ entries → (acc.map Prod.fst).Nodup →
      lookupVal k (applyRemovals true entries acc) = none := by
  intro entries
  induction entries with
  | nil => intro _ _ hm; simp at hm
  | cons kv rest ih =>
    intro acc hnd hm hacc
    obtain ⟨k2, v⟩ := kv
    simp at hnd
    rcases List.mem_cons.mp hm with heq | htl
    · obtain ⟨hk, hvv⟩ := Prod.mk.injEq .. ▸ heq.symm
      subst hk
      subst hvv
      rw [applyRemovals, if_pos rfl]
      simp only [if_pos rfl]
      rw [applyRemovals_untouched (fun kv hkv _ => by
        intro hf
        exact hnd.1 kv.2 (by rw [← hf]; simpa using hkv))]
      exact lookupVal_eraseKey_self hacc
    · have hk2 : k2 ≠ k := fun hf => by
        subst hf
        exact hnd.1 Value.removeKey htl
      rw [applyRemovals]
      by_cases hv : v = Value.removeKey
      · rw [if_pos hv]
        simp only [if_pos rfl]
        exact ih hnd.2 htl (hacc.sublist ((eraseKey_sublist k2 acc).map Prod.fst))
      · rw [if_neg hv]
        exact ih hnd.2 htl hacc

theorem applyRemovals_removed_record {k : String} :
    ∀ {entries : Item} {acc : Item}, (entries.map Prod.fst).Nodup →
      (k, Value.removeKey) ∈ entries → (lookupVal k acc).isSome →
      lookupVal k (applyRemovals false entries acc) = some Value.missingKey := by
  intro entries
  induction entries with
  | nil => intro _ _ hm; simp at hm
  | cons kv rest ih =>
    intro acc hnd hm hacc
    obtain ⟨k2, v⟩ := kv
    simp at hnd
    rcases List.mem_cons.mp hm with heq | htl
    · obtain ⟨hk, hvv⟩ := Prod.mk.injEq .. ▸ heq.symm
      subst hk
      subst hvv
      rw [applyRemovals, if_pos rfl]
      simp only [if_neg Bool.false_ne_true]
      rw [applyRemovals_untouched (fun kv hkv _ => by
        intro hf
        exact hnd.1 kv.2 (by rw [← hf]; simpa using hkv))]
      exact lookupVal_setVal_self hacc
    · have hk2 : k2 ≠ k := fun hf => by
        subst hf
        exact hnd.1 Value.removeKey htl
      rw [applyRemovals]
      by_cases hv : v = Value.removeKey
      · rw [if_pos hv]
        simp only [if_neg Bool.false_ne_true]
        apply ih hnd.2 htl
        rw [lookupVal_setVal_ne (fun hf => hk2 hf.symm)]
        exact hacc
      · rw [if_neg hv]
        exact ih hnd.2 htl hacc

theorem addTrailingFilter_two {filters : List Cond} {a b : FindArg}
    {rest : List FindArg} :
    addTrailingFilter filters (a :: b :: rest) = .error .assertionErr := rfl

theorem kwargsFilters_some_ok (ks : List String) (kwargs : Item) :
    kwargsFilters (some ks) kwargs =
      .ok ((kwargs.filter (fun kv => !(ks.contains kv.1))).map
        (fun kv => Cond.keyEq kv.1 kv.2)) := by
  cases kwargs <;> rfl

theorem findIndexBranch_ok_shape {t : Table} {sel : FindArg} {args : List FindArg}
    {kwargs : Item} {req : FindRequest}
    (h : findIndexBranch t sel args kwargs = .ok req) :
    req.op = "query" ∧ req.indexName = selIndexName sel := by
  simp only [findIndexBranch] at h
  split at h
  · cases h
  · split at h
    · cases h
    · split at h
      · cases h
      · cases h
        exact ⟨rfl, rfl⟩

theorem findScanBranch_ok_shape {args : List FindArg} {kwargs : Item}
    {req : FindRequest} (h : findScanBranch args kwargs = .ok req) :
    req.op = "scan" ∧ req.indexName = none := by
  simp only [findScanBranch] at h
  split at h
  · cases h
    exact ⟨rfl, rfl⟩
  · split at h
    · cases h
    · split at h
      · cases h
      · cases h
        exact ⟨rfl, rfl⟩

theorem findIndexBranch_over {t : Table} {sel : FindArg} {args : List FindArg}
    {kwargs : Item} (h : 3 ≤ args.length) :
    ∃ e, findIndexBranch t sel args kwargs = .error e := by
  rcases args with _ | ⟨a1, args1⟩
  · simp at h
  rcases args1 with _ | ⟨a2, args2⟩
  · simp at h
  rcases args2 with _ | ⟨a3, args3⟩
  · simp at h
  simp only [findIndexBranch]
  by_cases h1 : a1.truthy
  · simp only [h1, if_true]
    rcases kwargs with _ | ⟨kv, kwrest⟩
    · exact ⟨.assertionErr, rfl⟩
    · exact ⟨.nameErr, rfl⟩
  · rw [Bool.not_eq_true] at h1
    simp only [h1, Bool.false_eq_true, if_false]
    rcases hs : synthKeyCond t sel kwargs with e | ⟨c, ks⟩
    · exact ⟨e, rfl⟩
    · simp only [kwargsFilters_some_ok, addTrailingFilter_two]
      exact ⟨.assertionErr, rfl⟩

theorem findScanBranch_over {args : List FindArg} {kwargs : Item}
    (h : 2 ≤ args.length) :
    findScanBranch args kwargs = .error .assertionErr := by
  rcases args with _ | ⟨a1, args1⟩
  · simp at h
  rcases args1 with _ | ⟨a2, args2⟩
  · simp at h
  rfl

theorem getAs_ok_key {α : Type} {t : Table} {conv : Item → α} {kwargs : Item}
    {svc : Item → Option Item} {key : Item}
    (hkey : buildGetKey t.keySchema kwargs = .ok key) :
    Table.getAs t conv kwargs svc =
      if kwargs.filter (fun kv => !(t.keySchema.contains kv.1)) = [] then
        fetchPhase t conv key svc
      else .error (.unexpectedField
        ((kwargs.filter (fun kv => !(t.keySchema.contains kv.1))).map
          Prod.fst)) := by
  rw [Table.getAs, hkey]

/-! Theorems for the frozen claims. -/

/-- C1 (amended): for every successful call to find, a first positional
argument that is the PRIMARY_KEY sentinel yields a paginated query against
the base index, a first positional argument that is a non-empty index-name
string yields a paginated query against that named index, while an
empty-string index name (consumed as a falsy selector) and the absence of
any index selector both yield a paginated full scan. -/
theorem find_query_vs_scan (t : Table) (args0 : List FindArg) (kwargs : Item)
    (req : FindRequest) (h : Table.find t args0 kwargs = .ok req) :
    (∀ rest, args0 = FindArg.primaryKey :: rest →
      req.op = "query" ∧ req.indexName = none) ∧
    (∀ s rest, args0 = FindArg.name s :: rest → s ≠ "" →
      req.op = "query" ∧ req.indexName = some s) ∧
    (∀ s rest, args0 = FindArg.name s :: rest → s = "" →
      req.op = "scan" ∧ req.indexName = none) ∧
    ((∀ a rest, args0 = a :: rest → a.isSelector = false) →
      req.op = "scan" ∧ req.indexName = none) := by
  refine ⟨?_, ?_, ?_, ?_⟩
  · intro rest heq
    subst heq
    rw [Table.find] at h
    simp only [FindArg.isSelector, FindArg.truthy, if_true] at h
    obtain ⟨h1, h2⟩ := findIndexBranch_ok_shape h
    exact ⟨h1, by rw [h2]; rfl⟩
  · intro s rest heq hs
    subst heq
    rw [Table.find] at h
    simp only [FindArg.isSelector, FindArg.truthy, if_true] at h
    rw [if_pos (decide_eq_true hs)] at h
    obtain ⟨h1, h2⟩ := findIndexBranch_ok_shape h
    exact ⟨h1, by rw [h2]; rfl⟩
  · intro s rest heq hs
    subst hs
    subst heq
    rw [Table.find] at h
    simp only [FindArg.isSelector, FindArg.truthy, if_true] at h
    rw [if_neg (by decide)] at h
    exact findScanBranch_ok_shape h
  · intro hns
    rcases args0 with _ | ⟨a, rest⟩
    · rw [Table.find] at h
      exact findScanBranch_ok_shape h
    · rw [Table.find] at h
      rw [hns a rest rfl] at h
      simp only [Bool.false_eq_true, if_false] at h
      exact findScanBranch_ok_shape h

/-- Concrete request produced by a primary-key query in the C1 witness. -/
def pkFindReq : FindRequest :=
  { op := "query", indexName := none,
    keyCond := some (Cond.keyEq "id" (Value.str "1")), filterExpr := none }

/-- Witness for C1: a concrete primary-key find call dispatches a query. -/
theorem find_query_vs_scan_witness :
    pkFindReq.op = "query" ∧ pkFindReq.indexName = none :=
  (find_query_vs_scan plainTable [FindArg.primaryKey] [("id", Value.str "1")]
    pkFindReq rfl).1 [] rfl

/-- C1 counterexample: the claim as frozen says every index-name string,
including the empty string, dispatches a query, but find with the
empty-string index name consumes it as a (falsy) selector and performs a
full scan with no IndexName. -/
theorem find_empty_index_name_scans :
    Table.find plainTable [FindArg.name ""] [] =
      .ok { op := "scan", indexName := none, keyCond := none,
            filterExpr := none } := rfl

/-- C2 (code bug): a find call that supplies an index selector, an explicit
key-condition expression right after it, and a keyword filter crashes with
the NameError on the unassigned idx_keys local instead of turning the
keyword into an equality filter, because the explicit key-condition path
never assigns idx_keys yet line 177 reads it. -/
theorem find_explicit_keycond_kwargs_nameErr :
    Table.find userTable
        [FindArg.primaryKey, FindArg.cond (Cond.keyEq "id" (Value.str "1"))]
        [("hair", Value.str "white")] = .error .nameErr := rfl

/-- C8 (amended): beyond a truthy index selector find accepts up to two
trailing positional expressions (key condition, then filter), and without
a truthy selector at most one; any additional positional argument makes the
call abort with an exception (the usage assertion, or an earlier error on
the same path) before any service request is dispatched. -/
theorem find_positional_limit (t : Table) (args0 : List FindArg) (kwargs : Item)
    (h : overLimit args0 = true) :
    ∃ e, Table.find t args0 kwargs = .error e := by
  rcases args0 with _ | ⟨a, r⟩
  · simp [overLimit] at h
  · rw [overLimit] at h
    by_cases hsel : a.isSelector = true
    · rw [if_pos hsel] at h
      by_cases htr : a.truthy = true
      · rw [if_pos htr, decide_eq_true_eq] at h
        rw [Table.find, if_pos hsel, if_pos htr]
        exact findIndexBranch_over h
      · rw [if_neg htr, decide_eq_true_eq] at h
        rw [Table.find, if_pos hsel, if_neg htr]
        exact ⟨.assertionErr, findScanBranch_over h⟩
    · rw [if_neg hsel, decide_eq_true_eq] at h
      rw [Table.find, if_neg hsel]
      exact ⟨.assertionErr, findScanBranch_over (by simp; omega)⟩

/-- Witness for C8: two positional expressions with no selector abort. -/
theorem find_positional_limit_witness :
    ∃ e, Table.find plainTable
      [FindArg.cond (Cond.litArg 3), FindArg.cond (Cond.litArg 4)] [] =
        .error e :=
  find_positional_limit plainTable
    [FindArg.cond (Cond.litArg 3), FindArg.cond (Cond.litArg 4)] [] rfl

/-- C8 counterexample: the claim as frozen says at most one trailing
positional expression beyond the index selector is accepted, but find with
the PRIMARY_KEY selector and two trailing expressions succeeds, using the
first as key condition and the second as filter. -/
theorem find_two_trailing_accepted :
    Table.find plainTable
        [FindArg.primaryKey, FindArg.cond (Cond.litArg 7),
          FindArg.cond (Cond.litArg 8)] [] =
      .ok { op := "query", indexName := none, keyCond := some (Cond.litArg 7),
            filterExpr := some (Cond.litArg 8) } := rfl

/-- C6 (amended): for every table schema and keyword mapping passed to get,
a missing declared key field fails with the missing-key error (and this
check runs first, taking precedence over the unexpected-field check); when
all key fields are present, any keyword beyond the key schema fails with
the unexpected-field error; and get proceeds to the fetch phase exactly
when the supplied field set matches the key schema. -/
theorem get_field_validation (t : Table) (kwargs : Item)
    (svc : Item → Option Item) :
    ((∃ k ∈ t.keySchema, lookupVal k kwargs = none) →
      ∃ f ∈ t.keySchema, lookupVal f kwargs = none ∧
        Table.get t kwargs svc = .error (.missingKey f)) ∧
    ((∀ k ∈ t.keySchema, (lookupVal k kwargs).isSome) →
      (∃ kv ∈ kwargs, ¬ kv.1 ∈ t.keySchema) →
      Table.get t kwargs svc = .error (.unexpectedField
        ((kwargs.filter (fun kv => !(t.keySchema.contains kv.1))).map
          Prod.fst))) ∧
    ((∀ k ∈ t.keySchema, (lookupVal k kwargs).isSome) →
      (∀ kv ∈ kwargs, kv.1 ∈ t.keySchema) →
      Table.get t kwargs svc =
        fetchPhase t (fun it => it) (keyProj t.keySchema kwargs) svc) := by
  refine ⟨?_, ?_, ?_⟩
  · intro hex
    obtain ⟨f, hf, hfn, hkey⟩ := buildGetKey_missing hex
    exact ⟨f, hf, hfn, by rw [Table.get, Table.getAs, hkey]⟩
  · intro hall hex
    obtain ⟨kv, hkv, hnm⟩ := hex
    have hcon : t.keySchema.contains kv.1 = false := by
      cases hb : t.keySchema.contains kv.1 with
      | false => rfl
      | true => exact absurd (List.elem_iff.mp hb) hnm
    have hne : kwargs.filter (fun kv => !(t.keySchema.contains kv.1)) ≠ [] :=
      List.ne_nil_of_mem (List.mem_filter.mpr ⟨hkv, by rw [hcon]; rfl⟩)
    rw [Table.get, getAs_ok_key (buildGetKey_ok_of_all hall), if_neg hne]
  · intro hall hsub
    have hemp : kwargs.filter (fun kv => !(t.keySchema.contains kv.1)) = [] := by
      rw [List.filter_eq_nil_iff]
      intro kv hkv
      have hc : t.keySchema.contains kv.1 = true := List.elem_iff.mpr (hsub kv hkv)
      rw [hc]
      simp
    rw [Table.get, getAs_ok_key (buildGetKey_ok_of_all hall), if_pos hemp]

/-- Witness for C6: a get call missing the only key field fails with the
missing-key error. -/
theorem get_field_validation_witness :
    ∃ f ∈ plainTable.keySchema, lookupVal f [("hair", Value.str "x")] = none ∧
      Table.get plainTable [("hair", Value.str "x")] (fun _ => none) =
        .error (.missingKey f) :=
  (get_field_validation plainTable [("hair", Value.str "x")]
    (fun _ => none)).1 ⟨"id", by decide, rfl⟩

/-- C6 counterexample: the claim as frozen says keywords containing a field
beyond the key schema make get fail with the unexpected-field error, but a
call whose keywords hold only the out-of-schema field fails with the
missing-key error instead, because the missing-key check runs first. -/
theorem get_missing_key_precedes_unexpected :
    Table.get plainTable [("hair", Value.str "white")] (fun _ => none) =
      .error (.missingKey "id") := rfl

/-- C7 (confirmed): for every get call whose keywords pass key validation,
a GetItem that returns no item makes get raise the handle's own
distinguished not-found error (tagged with the handle's identity and the
requested key) rather than returning any default, and a GetItem that
returns a (non-empty) item makes get return that item converted by the
handle's item type, with no error. -/
theorem get_not_found_per_handle {α : Type} (t : Table) (conv : Item → α)
    (kwargs key : Item) (svc : Item → Option Item)
    (hkey : buildGetKey t.keySchema kwargs = .ok key)
    (hextra : kwargs.filter (fun kv => !(t.keySchema.contains kv.1)) = []) :
    (svc key = none →
      t.getAs conv kwargs svc = .error (.notFound t.handleId key)) ∧
    (∀ item, svc key = some item → item ≠ [] →
      t.getAs conv kwargs svc = .ok (conv item)) := by
  constructor
  · intro hnone
    rw [getAs_ok_key hkey, if_pos hextra, fetchPhase, hnone]
  · intro item hsome hne
    rw [getAs_ok_key hkey, if_pos hextra, fetchPhase, hsome]
    show (if item = [] then Except.error (GetError.notFound t.handleId key)
      else Except.ok (conv item)) = Except.ok (conv item)
    rw [if_neg hne]

/-- Witness for C7: a concrete get whose service returns nothing raises the
handle's own not-found error carrying the handle identity and the key. -/
theorem get_not_found_per_handle_witness :
    Table.getAs plainTable (fun it => it) [("id", Value.str "9")]
        (fun _ => none) =
      .error (.notFound 1 [("id", Value.str "9")]) :=
  (get_not_found_per_handle plainTable (fun it => it) [("id", Value.str "9")]
    [("id", Value.str "9")] (fun _ => none) rfl rfl).1 rfl

/-- C3 (amended): for every update mapping that supplies every primary-key
field (with a non-MISSING value) and keeps at least one non-key field after
the MISSING_KEY strip, the request is built from the surviving non-key
fields in mapping iteration order: the `i`-th surviving field gets the
distinct name placeholder `#a i`; REMOVE_KEY fields contribute `#a i` to
the REMOVE clauses; every other field contributes `#a i = :v i` to the SET
clauses with `:v i` mapped to its value; and the final expression is the
`SET` segment (present iff some set clause exists) followed by the `REMOVE`
segment, which always carries a leading space (present iff some remove
clause exists). -/
theorem update_expression_layout (t : Table) (upd : Item) (isDict : Bool)
    (rv : String) (hnds : t.keySchema.Nodup) (hnd : (upd.map Prod.fst).Nodup)
    (hkeys : ∀ k ∈ t.keySchema,
      lookupVal k upd ≠ none ∧ lookupVal k upd ≠ some Value.missingKey)
    (hrest : nonKeyFields t upd ≠ []) :
    ∃ pk mutated, Table.update t upd isDict rv =
      .ok ({ key := pk,
             updateExpr := exprSpec (nonKeyFields t upd),
             exprAttrs := attrMapSpec 0 (nonKeyFields t upd),
             exprVals := valMapSpec 0 (nonKeyFields t upd),
             returnValues := rv }, mutated) := by
  have hnd2 : ((itemdict upd).map Prod.fst).Nodup := nodup_fst_filter hnd
  have hall : ∀ k ∈ t.keySchema, (lookupVal k (itemdict upd)).isSome := by
    intro k hk
    obtain ⟨h1, h2⟩ := hkeys k hk
    rcases hv : lookupVal k upd with _ | v
    · exact absurd hv h1
    · have hvm : v ≠ Value.missingKey := fun hf => h2 (by rw [hv, hf])
      rw [itemdict, lookupVal_filter_some hnd hv (by simp [hvm])]
      rfl
  have hclosed : extractPk t.keySchema (itemdict upd) =
      .ok (keyProj t.keySchema (itemdict upd), nonKeyFields t upd) :=
    extractPk_closed hnds hnd2 hall
  refine ⟨keyProj t.keySchema (itemdict upd),
    applyRemovals isDict (nonKeyFields t upd) upd, ?_⟩
  simp only [Table.update, hclosed]
  rw [if_neg hrest]
  rw [buildParts_eq]
  rfl

/-- Witness for C3: a concrete update with one set field and one removed
field produces the predicted placeholder maps and expression text. -/
theorem update_expression_layout_witness :
    ∃ pk mutated,
      Table.update plainTable
          [("id", Value.str "1"), ("a", Value.int 1), ("b", Value.removeKey)]
          false "NONE" =
        .ok ({ key := pk,
               updateExpr := exprSpec (nonKeyFields plainTable
                 [("id", Value.str "1"), ("a", Value.int 1),
                   ("b", Value.removeKey)]),
               exprAttrs := attrMapSpec 0 (nonKeyFields plainTable
                 [("id", Value.str "1"), ("a", Value.int 1),
                   ("b", Value.removeKey)]),
               exprVals := valMapSpec 0 (nonKeyFields plainTable
                 [("id", Value.str "1"), ("a", Value.int 1),
                   ("b", Value.removeKey)]),
               returnValues := "NONE" }, mutated) :=
  update_expression_layout plainTable
    [("id", Value.str "1"), ("a", Value.int 1), ("b", Value.removeKey)]
    false "NONE" (by decide) (by decide) (by decide) (by decide)

/-- C3 counterexample: the claim as frozen enumerates every non-key field
of the mapping (so a MISSING_KEY field would consume placeholder index 0,
the REMOVE_KEY field would get placeholder index 1, and the expression
would read "REMOVE #a1" with no leading space); the code instead strips the
MISSING_KEY field before enumeration, assigns the surviving field the
placeholder #a0, and emits " REMOVE #a0" with a leading space in front of
the REMOVE segment. -/
theorem update_remove_only_layout :
    Table.update plainTable
        [("id", Value.str "1"), ("a", Value.missingKey), ("b", Value.removeKey)]
        true "ALL_NEW" =
      .ok ({ key := [("id", Value.str "1")],
             updateExpr := " REMOVE #a0",
             exprAttrs := [("#a0", "b")],
             exprVals := [],
             returnValues := "ALL_NEW" },
        [("id", Value.str "1"), ("a", Value.missingKey)]) := rfl

/-- C4 (amended): for every update mapping supplying every primary-key
field with a non-MISSING value, update fails with the empty-update error
exactly when no non-key field survives the MISSING_KEY strip — so a
mapping whose only non-key fields carry MISSING_KEY raises the error
rather than being skipped — and when the error is raised the result is
fixed before the service is consulted (no service call is made). -/
theorem update_empty_iff (t : Table) (upd : Item) (isDict : Bool) (rv : String)
    (hnds : t.keySchema.Nodup) (hnd : (upd.map Prod.fst).Nodup)
    (hkeys : ∀ k ∈ t.keySchema,
      lookupVal k upd ≠ none ∧ lookupVal k upd ≠ some Value.missingKey) :
    (Table.update t upd isDict rv = .error UpdateError.emptyUpdate ↔
      nonKeyFields t upd = []) ∧
    (nonKeyFields t upd = [] → ∀ svc,
      Table.updateWithService t upd isDict rv svc =
        (.error (Sum.inl UpdateError.emptyUpdate), upd)) := by
  have hnd2 : ((itemdict upd).map Prod.fst).Nodup := nodup_fst_filter hnd
  have hall : ∀ k ∈ t.keySchema, (lookupVal k (itemdict upd)).isSome := by
    intro k hk
    obtain ⟨h1, h2⟩ := hkeys k hk
    rcases hv : lookupVal k upd with _ | v
    · exact absurd hv h1
    · have hvm : v ≠ Value.missingKey := fun hf => h2 (by rw [hv, hf])
      rw [itemdict, lookupVal_filter_some hnd hv (by simp [hvm])]
      rfl
  have hclosed : extractPk t.keySchema (itemdict upd) =
      .ok (keyProj t.keySchema (itemdict upd), nonKeyFields t upd) :=
    extractPk_closed hnds hnd2 hall
  have hupdpos : nonKeyFields t upd = [] →
      Table.update t upd isDict rv = .error .emptyUpdate := by
    intro hemp
    simp only [Table.update, hclosed]
    rw [if_pos hemp]
  constructor
  · constructor
    · intro herr
      by_contra hne
      have hok : Table.update t upd isDict rv = .ok
          ({ key := keyProj t.keySchema (itemdict upd),
             updateExpr := mkUpdateExpr
               (buildParts 0 (nonKeyFields t upd)).2.2.1
               (buildParts 0 (nonKeyFields t upd)).2.2.2,
             exprAttrs := (buildParts 0 (nonKeyFields t upd)).1,
             exprVals := (buildParts 0 (nonKeyFields t upd)).2.1,
             returnValues := rv },
            applyRemovals isDict (nonKeyFields t upd) upd) := by
        simp only [Table.update, hclosed]
        rw [if_neg hne]
      rw [herr] at hok
      cases hok
    · exact hupdpos
  · intro hemp svc
    rw [Table.updateWithService, hupdpos hemp]

/-- Witness for C4: a concrete update whose only non-key field carries
MISSING_KEY satisfies the amended equivalence and makes no service call. -/
theorem update_empty_iff_witness :
    (Table.update plainTable [("id", Value.str "2"), ("x", Value.missingKey)]
        true "ALL_NEW" = .error UpdateError.emptyUpdate ↔
      nonKeyFields plainTable [("id", Value.str "2"), ("x", Value.missingKey)]
        = []) ∧
    (nonKeyFields plainTable [("id", Value.str "2"), ("x", Value.missingKey)]
        = [] → ∀ svc,
      Table.updateWithService plainTable
          [("id", Value.str "2"), ("x", Value.missingKey)] true "ALL_NEW"
          svc =
        (.error (Sum.inl UpdateError.emptyUpdate),
          [("id", Value.str "2"), ("x", Value.missingKey)])) :=
  update_empty_iff plainTable [("id", Value.str "2"), ("x", Value.missingKey)]
    true "ALL_NEW" (by decide) (by decide) (by decide)

/-- C4 counterexample: the claim as frozen says a mapping whose only
non-key fields carry MISSING_KEY is skipped, not errored; the code strips
those fields in itemdict before the emptiness check and raises the
empty-update error on exactly such a mapping. -/
theorem update_missing_only_errors :
    Table.update plainTable [("id", Value.str "1"), ("age", Value.missingKey)]
        true "ALL_NEW" = .error UpdateError.emptyUpdate := rfl

/-- C5 (confirmed): whenever update gets past its pre-call checks, the
caller's original update argument has already been mutated by the time the
service call is issued — every non-key field whose value is REMOVE_KEY is
popped from a dict argument (or set to MISSING_KEY on a record argument) —
and this mutated state is what the caller observes whether the service call
succeeds or fails, while every field not marked REMOVE_KEY keeps its
original value in the caller's argument. -/
theorem update_mutates_caller (t : Table) (upd : Item) (isDict : Bool)
    (rv : String) (svc : UpdateRequest → Except String Item)
    (hnd : (upd.map Prod.fst).Nodup) (req : UpdateRequest) (mutated : Item)
    (hok : Table.update t upd isDict rv = .ok (req, mutated)) :
    (Table.updateWithService t upd isDict rv svc).2 = mutated ∧
    (∀ k v, lookupVal k upd = some v → v ≠ Value.removeKey →
      lookupVal k mutated = some v) ∧
    (∀ k, lookupVal k upd = some Value.removeKey → ¬ k ∈ t.keySchema →
      (isDict = true → lookupVal k mutated = none) ∧
      (isDict = false → lookupVal k mutated = some Value.missingKey)) := by
  have hsvc : (Table.updateWithService t upd isDict rv svc).2 = mutated := by
    simp only [Table.updateWithService, hok]
    rcases hs : svc req with e | res <;> simp [hs]
  rw [Table.update] at hok
  rcases hpk : extractPk t.keySchema (itemdict upd) with e | ⟨pk, rest⟩
  · simp only [hpk] at hok
    cases hok
  simp only [hpk] at hok
  by_cases hemp : rest = []
  · rw [if_pos hemp] at hok; cases hok
  rw [if_neg hemp] at hok
  simp only [Except.ok.injEq, Prod.mk.injEq] at hok
  obtain ⟨hreq, hmut⟩ := hok
  have hnd2 : ((itemdict upd).map Prod.fst).Nodup := nodup_fst_filter hnd
  have hsubit : ∀ kv, kv ∈ rest → kv ∈ upd := fun kv hkv =>
    (List.filter_sublist upd).subset ((extractPk_rest_sublist hpk).subset hkv)
  have hrestnd : (rest.map Prod.fst).Nodup :=
    hnd2.sublist ((extractPk_rest_sublist hpk).map Prod.fst)
  refine ⟨hsvc, ?_, ?_⟩
  · intro k v hv hvr
    have hcond : ∀ kv ∈ rest, kv.2 = Value.removeKey → kv.1 ≠ k := by
      intro kv hkv hrm hf
      have hkve : (k, Value.removeKey) = kv := by
        rw [← hf, ← hrm]
      have hmem : (k, Value.removeKey) ∈ upd := by
        rw [hkve]
        exact hsubit kv hkv
      rw [mem_lookupVal hnd hmem] at hv
      cases hv
      exact hvr rfl
    rw [← hmut, applyRemovals_untouched hcond]
    exact hv
  · intro k hv hns
    have hmemit : (k, Value.removeKey) ∈ itemdict upd := by
      rw [itemdict]
      exact List.mem_filter.mpr ⟨lookupVal_mem hv, by simp⟩
    have hmemrest : (k, Value.removeKey) ∈ rest :=
      extractPk_mem_rest hpk hmemit hns
    constructor
    · intro hd
      subst hd
      rw [← hmut]
      exact applyRemovals_removed_dict hrestnd hmemrest hnd
    · intro hd
      subst hd
      rw [← hmut]
      exact applyRemovals_removed_record hrestnd hmemrest (by rw [hv]; rfl)

/-- Concrete update mapping for the C5 witness. -/
def updEx5 : Item :=
  [("id", Value.str "1"), ("x", Value.int 5), ("nick", Value.removeKey)]

/-- The caller's mapping after the C5 witness update popped the removed
field. -/
def mutEx5 : Item := [("id", Value.str "1"), ("x", Value.int 5)]

/-- The request the C5 witness update assembles. -/
def reqEx5 : UpdateRequest :=
  { key := [("id", Value.str "1")],
    updateExpr := "SET #a0 = :v0 REMOVE #a1",
    exprAttrs := [("#a0", "x"), ("#a1", "nick")],
    exprVals := [(":v0", Value.int 5)],
    returnValues := "ALL_NEW" }

/-- Witness for C5: with a service that always fails, the caller's mapping
still ends up with the REMOVE_KEY field popped and the other fields kept. -/
theorem update_mutates_caller_witness :
    (Table.updateWithService plainTable updEx5 true "ALL_NEW"
        (fun _ => .error "boom")).2 = mutEx5 ∧
    lookupVal "x" mutEx5 = some (Value.int 5) ∧
    lookupVal "nick" mutEx5 = none :=
  have h := update_mutates_caller plainTable updEx5 true "ALL_NEW"
    (fun _ => .error "boom") (by decide) reqEx5 mutEx5 rfl
  ⟨h.1, h.2.1 "x" (Value.int 5) rfl (by decide), (h.2.2 "nick" rfl (by decide)).1 rfl⟩

theorem svcGetItem_putItem (schema : List String) (it : Item)
    (store : List Item) :
    svcGetItem schema (putItem schema it store) (keyProj schema it) = some it := by
  rw [svcGetItem, putItem, List.find?_append]
  have h1 : (store.filter
      (fun s => decide (¬ keyProj schema s = keyProj schema it))).find?
      (fun s => decide (keyProj schema s = keyProj schema it)) = none := by
    rw [List.find?_eq_none]
    intro x hx
    obtain ⟨hx1, hx2⟩ := List.mem_filter.mp hx
    simp only [decide_eq_true_eq] at hx2 ⊢
    exact hx2
  rw [h1, Option.none_or, List.find?_cons]
  simp

/-- C9 (confirmed): put stores exactly the item's field mapping with every
MISSING_KEY-valued field removed — such a field never appears as a key of
the stored representation, while every other field keeps its value — and a
subsequent get by the item's full primary key returns that stored mapping,
so every non-MISSING field round-trips unchanged. -/
theorem put_get_roundtrip (t : Table) (item : Item) (store : List Item)
    (hnds : t.keySchema.Nodup) (hne : t.keySchema ≠ [])
    (hnd : (item.map Prod.fst).Nodup)
    (hkeys : ∀ k ∈ t.keySchema,
      lookupVal k item ≠ none ∧ lookupVal k item ≠ some Value.missingKey) :
    itemdict item ∈ Table.put t item store ∧
    (∀ k, lookupVal k item = some Value.missingKey →
      ¬ k ∈ (itemdict item).map Prod.fst) ∧
    (∀ k v, lookupVal k item = some v → v ≠ Value.missingKey →
      lookupVal k (itemdict item) = some v) ∧
    Table.get t (keyProj t.keySchema item)
      (svcGetItem t.keySchema (Table.put t item store)) = .ok (itemdict item) := by
  refine ⟨?_, ?_, ?_, ?_⟩
  · rw [Table.put, putItem]
    exact List.mem_append_right _ (List.mem_singleton.mpr rfl)
  · intro k hv
    rw [← lookupVal_eq_none, itemdict]
    exact lookupVal_filter_not hnd hv (by simp)
  · intro k v hv hvm
    rw [itemdict]
    exact lookupVal_filter_some hnd hv (by simp [hvm])
  · have hallP : ∀ k ∈ t.keySchema,
        (lookupVal k (keyProj t.keySchema item)).isSome := by
      intro k hk
      rw [lookupVal_keyProj hnds hk]
      rcases hv : lookupVal k item with _ | v
      · exact absurd hv (hkeys k hk).1
      · rfl
    have hidem : keyProj t.keySchema (keyProj t.keySchema item) =
        keyProj t.keySchema item :=
      keyProj_congr (fun k hk => lookupVal_keyProj hnds hk)
    have hkey : buildGetKey t.keySchema (keyProj t.keySchema item) =
        .ok (keyProj t.keySchema item) := by
      rw [buildGetKey_ok_of_all hallP, hidem]
    have hextra : (keyProj t.keySchema item).filter
        (fun kv => !(t.keySchema.contains kv.1)) = [] := by
      rw [List.filter_eq_nil_iff]
      intro kv hkv
      have hc : t.keySchema.contains kv.1 = true :=
        List.elem_iff.mpr (keyProj_keys_mem hkv)
      rw [hc]
      simp
    have hprojit : keyProj t.keySchema (itemdict item) =
        keyProj t.keySchema item := by
      apply keyProj_congr
      intro k hk
      obtain ⟨h1, h2⟩ := hkeys k hk
      rcases hv : lookupVal k item with _ | v
      · exact absurd hv h1
      · have hvm : v ≠ Value.missingKey := fun hf => h2 (by rw [hv, hf])
        rw [itemdict, lookupVal_filter_some hnd hv (by simp [hvm])]
    have hfind : svcGetItem t.keySchema (Table.put t item store)
        (keyProj t.keySchema item) = some (itemdict item) := by
      rw [Table.put, ← hprojit]
      exact svcGetItem_putItem t.keySchema (itemdict item) store
    have hnonempty : itemdict item ≠ [] := by
      obtain ⟨k0, hk0⟩ := List.exists_mem_of_ne_nil _ hne
      obtain ⟨h1, h2⟩ := hkeys k0 hk0
      rcases hv : lookupVal k0 item with _ | v
      · exact absurd hv h1
      · have hvm : v ≠ Value.missingKey := fun hf => h2 (by rw [hv, hf])
        have hlook : lookupVal k0 (itemdict item) = some v := by
          rw [itemdict]
          exact lookupVal_filter_some hnd hv (by simp [hvm])
        intro hf
        rw [hf] at hlook
        simp [lookupVal] at hlook
    rw [Table.get, getAs_ok_key hkey, if_pos hextra, fetchPhase, hfind]
    show (if itemdict item = [] then
        Except.error (GetError.notFound t.handleId (keyProj t.keySchema item))
      else Except.ok (itemdict item)) = Except.ok (itemdict item)
    rw [if_neg hnonempty]

/-- Witness for C9: a concrete item with a MISSING_KEY field is stored
without it and round-trips through put and get. -/
theorem put_get_roundtrip_witness :
    itemdict [("id", Value.str "1"), ("age", Value.missingKey),
        ("name", Value.str "Bob")] ∈
      Table.put plainTable [("id", Value.str "1"), ("age", Value.missingKey),
        ("name", Value.str "Bob")] [] ∧
    (∀ k, lookupVal k [("id", Value.str "1"), ("age", Value.missingKey),
        ("name", Value.str "Bob")] = some Value.missingKey →
      ¬ k ∈ (itemdict [("id", Value.str "1"), ("age", Value.missingKey),
        ("name", Value.str "Bob")]).map Prod.fst) ∧
    (∀ k v, lookupVal k [("id", Value.str "1"), ("age", Value.missingKey),
        ("name", Value.str "Bob")] = some v → v ≠ Value.missingKey →
      lookupVal k (itemdict [("id", Value.str "1"), ("age", Value.missingKey),
        ("name", Value.str "Bob")]) = some v) ∧
    Table.get plainTable
      (keyProj plainTable.keySchema [("id", Value.str "1"),
        ("age", Value.missingKey), ("name", Value.str "Bob")])
      (svcGetItem plainTable.keySchema
        (Table.put plainTable [("id", Value.str "1"),
          ("age", Value.missingKey), ("name", Value.str "Bob")] [])) =
      .ok (itemdict [("id", Value.str "1"), ("age", Value.missingKey),
        ("name", Value.str "Bob")]) :=
  put_get_roundtrip plainTable
    [("id", Value.str "1"), ("age", Value.missingKey), ("name", Value.str "Bob")]
    [] (by decide) (by decide) (by decide) (by decide)

/-- C10 (confirmed): iterating the registry yields only cached table
handles whose names start with the configured non-empty prefix, while the
registry's length counts every cached handle without applying the prefix
filter — the length equals the iteration count plus the count of
non-matching cached handles — so the reported length can exceed the number
of handles iteration produces, as a concrete registry exhibits. -/
theorem registry_iter_vs_len (r : Registry) (h : r.namePfx ≠ "") :
    (∀ tb ∈ r.iterTables, strStartsWith tb.name r.namePfx = true) ∧
    r.lenTables = r.iterTables.length +
      ((r.effCache.map Prod.snd).filter
        (fun tb => !(strStartsWith tb.name r.namePfx))).length ∧
    (∃ r2 : Registry, r2.namePfx ≠ "" ∧
      r2.iterTables.length < r2.lenTables) := by
  refine ⟨?_, ?_, ?_⟩
  · intro tb htb
    exact (List.mem_filter.mp htb).2
  · rw [Registry.lenTables, Registry.iterTables]
    have hpart := List.length_eq_length_filter_add
      (l := r.effCache.map Prod.snd)
      (fun tb => strStartsWith tb.name r.namePfx)
    rw [List.length_map] at hpart
    exact hpart
  · exact ⟨{ cache := [("x", plainTable)], namePfx := "p", svcTables := [] },
      by decide, by decide⟩

/-- Concrete registry used by the C10 witness. -/
def regEx10 : Registry :=
  { cache := [("a", userTable)], namePfx := "U", svcTables := [] }

/-- Witness for C10: on a concrete registry with a matching prefix, the
length equals the iteration count plus the non-matching count. -/
theorem registry_iter_vs_len_witness :
    regEx10.lenTables = regEx10.iterTables.length +
      ((regEx10.effCache.map Prod.snd).filter
        (fun tb => !(strStartsWith tb.name regEx10.namePfx))).length :=
  (registry_iter_vs_len regEx10 (by decide)).2.1

end Dynamesa
